import Mathlib

/-
  Verification of dynamo-down (src/dynamo-down.js).

  The source is a LevelDOWN adapter over DynamoDB.  We give a shallow
  embedding of its core: the value codec (serialize / parse), the
  key/item mapper (_toItem / _toKV), the range-query planner
  (DynamoIterator constructor), the paginating iterator (_next),
  the batch writer (_batch) and the get path (_get).

  Modelling conventions:
  - JS dynamic values are the inductive JSValue.  JS numbers are modelled
    as integers (their decimal printing via String(n) and re-reading via
    parseFloat); float-specific behaviour is out of scope.
  - Node Buffers are byte lists; Buffer#toString("base64") and
    Buffer(s, "base64") are modelled by b64encode / b64decode below.
  - JS objects are association lists in property-insertion order with
    unique keys; property assignment is setField, property deletion is
    delField, property read is getField.
  - Values outside the supported union are JSValue.other with the
    constructor name the source would dispatch on.
  - Thrown errors become Except.error carrying the message.
-/

/-- A JS runtime value as dynamo-down sees it. -/
inductive JSValue where
  | nullv
  | undefined
  | str (s : String)
  | num (n : Int)
  | bool (b : Bool)
  | buf (bytes : List Nat)
  | arr (elems : List JSValue)
  | obj (fields : List (String × JSValue))
  | other (typeName : String)

/-- A DynamoDB attribute value: a single type tag with its payload.
    The N payload is the decimal string the provider requires; the B
    payload is base64 text. -/
inductive AttrValue where
  | NULL
  | S (s : String)
  | B (s : String)
  | BOOL (b : Bool)
  | N (s : String)
  | L (elems : List AttrValue)
  | M (fields : List (String × AttrValue))

/-! ### Base64 (Buffer#toString("base64") / Buffer(s, "base64")) -/

def b64alphabet : List Char :=
  "ABCDEFGHIJKLMNOPQRSTUVWXYZabcdefghijklmnopqrstuvwxyz0123456789+/".data

def sextetChar (n : Nat) : Char := b64alphabet.getD n '?'

def charSextet (c : Char) : Nat := (b64alphabet.indexOf c)

def b64encodeL : List Nat → List Char
  | [] => []
  | [a] => [sextetChar (a / 4), sextetChar (a % 4 * 16), '=', '=']
  | [a, b] => [sextetChar (a / 4), sextetChar (a % 4 * 16 + b / 16),
               sextetChar (b % 16 * 4), '=']
  | a :: b :: c :: rest =>
      sextetChar (a / 4) :: sextetChar (a % 4 * 16 + b / 16) ::
      sextetChar (b % 16 * 4 + c / 64) :: sextetChar (c % 64) :: b64encodeL rest

def b64decodeL : List Char → List Nat
  | w :: x :: y :: z :: rest =>
      if y = '=' then [charSextet w * 4 + charSextet x / 16]
      else if z = '=' then
        [charSextet w * 4 + charSextet x / 16,
         charSextet x % 16 * 16 + charSextet y / 4]
      else
        (charSextet w * 4 + charSextet x / 16) ::
        (charSextet x % 16 * 16 + charSextet y / 4) ::
        (charSextet y % 4 * 64 + charSextet z) :: b64decodeL rest
  | _ => []

def b64encode (bytes : List Nat) : String := (b64encodeL bytes).asString

def b64decode (s : String) : List Nat := b64decodeL s.data

theorem charSextet_sextetChar : ∀ n : Nat, n < 64 → charSextet (sextetChar n) = n := by
  decide

theorem sextetChar_ne_eq : ∀ n : Nat, n < 64 → sextetChar n ≠ '=' := by
  decide

theorem b64decodeL_encodeL (bytes : List Nat) (h : ∀ b ∈ bytes, b < 256) :
    b64decodeL (b64encodeL bytes) = bytes := by
  match bytes with
  | [] => rfl
  | [a] =>
      have ha : a < 256 := h a (by simp)
      have h1 : a / 4 < 64 := by omega
      have h2 : a % 4 * 16 < 64 := by omega
      simp only [b64encodeL, b64decodeL]
      rw [if_pos trivial]
      rw [charSextet_sextetChar _ h1, charSextet_sextetChar _ h2]
      simp only [List.cons.injEq, and_true]
      omega
  | [a, b] =>
      have ha : a < 256 := h a (by simp)
      have hb : b < 256 := h b (by simp)
      have h1 : a / 4 < 64 := by omega
      have h2 : a % 4 * 16 + b / 16 < 64 := by omega
      have h3 : b % 16 * 4 < 64 := by omega
      simp only [b64encodeL, b64decodeL]
      rw [if_neg (sextetChar_ne_eq _ h3)]
      rw [if_pos trivial]
      rw [charSextet_sextetChar _ h1, charSextet_sextetChar _ h2,
          charSextet_sextetChar _ h3]
      simp only [List.cons.injEq, and_true]
      refine ⟨by omega, by omega⟩
  | a :: b :: c :: rest =>
      have ha : a < 256 := h a (by simp)
      have hb : b < 256 := h b (by simp)
      have hc : c < 256 := h c (by simp)
      have h1 : a / 4 < 64 := by omega
      have h2 : a % 4 * 16 + b / 16 < 64 := by omega
      have h3 : b % 16 * 4 + c / 64 < 64 := by omega
      have h4 : c % 64 < 64 := by omega
      have hrest : ∀ x ∈ rest, x < 256 := by
        intro x hx; exact h x (by simp [hx])
      simp only [b64encodeL, b64decodeL]
      rw [if_neg (sextetChar_ne_eq _ h3)]
      rw [if_neg (sextetChar_ne_eq _ h4)]
      rw [charSextet_sextetChar _ h1, charSextet_sextetChar _ h2,
          charSextet_sextetChar _ h3, charSextet_sextetChar _ h4]
      have e1 : a / 4 * 4 + (a % 4 * 16 + b / 16) / 16 = a := by omega
      have e2 : (a % 4 * 16 + b / 16) % 16 * 16 + (b % 16 * 4 + c / 64) / 4 = b := by
        omega
      have e3 : (b % 16 * 4 + c / 64) % 4 * 64 + c % 64 = c := by omega
      rw [e1, e2, e3, b64decodeL_encodeL rest hrest]

theorem b64decode_encode (bytes : List Nat) (h : ∀ b ∈ bytes, b < 256) :
    b64decode (b64encode bytes) = bytes := by
  unfold b64decode b64encode
  rw [List.asString, b64decodeL_encodeL bytes h]

/-! ### Decimal numbers: String(n) and parseFloat on integral values -/

def digitChar (d : Nat) : Char := Char.ofNat (48 + d)

def charDigit (c : Char) : Nat := c.toNat - 48

/-- String(n) for a nonnegative integral JS number. -/
def natToStr (n : Nat) : String :=
  if n = 0 then "0" else ((Nat.digits 10 n).reverse.map digitChar).asString

/-- String(n) for an integral JS number. -/
def numToStr : Int → String
  | Int.ofNat n => natToStr n
  | Int.negSucc m => "-" ++ natToStr (m + 1)

def digitsVal (cs : List Char) : Nat :=
  Nat.ofDigits 10 ((cs.map charDigit).reverse)

def parseDecL : List Char → Int
  | [] => 0
  | c :: cs => if c = '-' then -(digitsVal cs : Int) else (digitsVal (c :: cs) : Int)

/-- parseFloat on the strings numToStr produces. -/
def parseDec (s : String) : Int := parseDecL s.data

theorem data_asString (l : List Char) : (List.asString l).data = l := rfl

theorem charDigit_digitChar (d : Nat) (h : d < 10) : charDigit (digitChar d) = d := by
  interval_cases d <;> decide

theorem digitChar_ne_minus (d : Nat) (h : d < 10) : digitChar d ≠ '-' := by
  interval_cases d <;> decide

theorem digitsVal_natToStr (n : Nat) : digitsVal (natToStr n).data = n := by
  unfold natToStr
  by_cases h : n = 0
  · rw [if_pos h, h]
    decide
  · rw [if_neg h, data_asString]
    unfold digitsVal
    have hd : ∀ d ∈ Nat.digits 10 n, d < 10 := fun d hdm =>
      Nat.digits_lt_base (by norm_num) hdm
    rw [List.map_map]
    have : List.map (charDigit ∘ digitChar) (Nat.digits 10 n).reverse
        = List.map id (Nat.digits 10 n).reverse := by
      apply List.map_congr_left
      intro d hdm
      have : d < 10 := hd d (List.mem_reverse.mp hdm)
      simpa using charDigit_digitChar d this
    rw [this, List.map_id, List.reverse_reverse, Nat.ofDigits_digits]

theorem natToStr_head_digit (n : Nat) :
    ∃ d cs, d < 10 ∧ (natToStr n).data = digitChar d :: cs := by
  unfold natToStr
  by_cases h : n = 0
  · exact ⟨0, [], by norm_num, by rw [if_pos h]; rfl⟩
  · rw [if_neg h]
    have hne : Nat.digits 10 n ≠ [] := Nat.digits_ne_nil_iff_ne_zero.mpr h
    have hrev : (Nat.digits 10 n).reverse ≠ [] := by
      simpa using hne
    match hm : (Nat.digits 10 n).reverse with
    | [] => exact absurd hm hrev
    | d :: rest =>
        refine ⟨d, rest.map digitChar, ?_, ?_⟩
        · have : d ∈ Nat.digits 10 n := by
            have : d ∈ (Nat.digits 10 n).reverse := by rw [hm]; simp
            exact List.mem_reverse.mp this
          exact Nat.digits_lt_base (by norm_num) this
        · rw [data_asString]
          simp

theorem parseDec_numToStr (n : Int) : parseDec (numToStr n) = n := by
  match n with
  | Int.ofNat m =>
      obtain ⟨d, cs, hd, hdata⟩ := natToStr_head_digit m
      unfold numToStr parseDec
      rw [hdata]
      have hred : parseDecL (digitChar d :: cs) = (digitsVal (digitChar d :: cs) : Int) := by
        simp [parseDecL, digitChar_ne_minus d hd]
      rw [hred, ← hdata, digitsVal_natToStr]
      rfl
  | Int.negSucc m =>
      unfold numToStr parseDec
      have hdata : ("-" ++ natToStr (m + 1)).data = '-' :: (natToStr (m + 1)).data := by
        have hcat : ∀ s t : String, (s ++ t).data = s.data ++ t.data := fun s t => rfl
        rw [hcat]
        rfl
      rw [hdata]
      have hred : parseDecL ('-' :: (natToStr (m + 1)).data)
          = -(digitsVal (natToStr (m + 1)).data : Int) := by
        simp [parseDecL]
      rw [hred, digitsVal_natToStr]
      simp [Int.negSucc_eq]

/-! ### The value codec: serialize (lines 3-23) and parse (lines 25-45) -/

/- serialize (dynamo-down.js lines 3-23).  `value == null` also catches
    undefined; the empty string is collapsed to NULL by the same guard.
    Dispatch is on the runtime constructor name; values outside the union
    are JSValue.other carrying that name and hit the default throw. -/
mutual
def serialize : JSValue → Except String AttrValue
  | .nullv => .ok .NULL
  | .undefined => .ok .NULL
  | .str s => if s = "" then .ok .NULL else .ok (.S s)
  | .buf bytes => .ok (.B (b64encode bytes))
  | .bool b => .ok (.BOOL b)
  | .num n => .ok (.N (numToStr n))
  | .arr elems =>
      match serializeList elems with
      | .error e => .error e
      | .ok l => .ok (.L l)
  | .obj fields =>
      match serializeObj fields with
      | .error e => .error e
      | .ok fs => .ok (.M fs)
  | .other typeName => .error ("Cannot serialize " ++ typeName)

def serializeList : List JSValue → Except String (List AttrValue)
  | [] => .ok []
  | x :: xs =>
      match serialize x with
      | .error e => .error e
      | .ok a =>
          match serializeList xs with
          | .error e => .error e
          | .ok as => .ok (a :: as)

def serializeObj : List (String × JSValue) → Except String (List (String × AttrValue))
  | [] => .ok []
  | (k, v) :: fs =>
      match serialize v with
      | .error e => .error e
      | .ok a =>
          match serializeObj fs with
          | .error e => .error e
          | .ok as => .ok ((k, a) :: as)
end

/- parse (dynamo-down.js lines 25-45).  AttrValue carries exactly the
    tags of the source's switch, so the default throw ("Cannot parse")
    is unreachable in the model. -/
mutual
def parse : AttrValue → JSValue
  | .NULL => .nullv
  | .S s => .str s
  | .B s => .buf (b64decode s)
  | .BOOL b => .bool b
  | .N s => .num (parseDec s)
  | .L elems => .arr (parseList elems)
  | .M fields => .obj (parseObj fields)

def parseList : List AttrValue → List JSValue
  | [] => []
  | x :: xs => parse x :: parseList xs

def parseObj : List (String × AttrValue) → List (String × JSValue)
  | [] => []
  | (k, v) :: fs => (k, parse v) :: parseObj fs
end

/- Values on which the codec can round-trip: no occurrence of the empty
    string (it collapses to NULL at any depth), no undefined, no value
    outside the union, and buffer bytes in range. -/
mutual
def clean : JSValue → Bool
  | .nullv => true
  | .undefined => false
  | .str s => s != ""
  | .num _ => true
  | .bool _ => true
  | .buf bytes => bytes.all (fun b => b < 256)
  | .arr elems => cleanList elems
  | .obj fields => cleanObj fields
  | .other _ => false

def cleanList : List JSValue → Bool
  | [] => true
  | x :: xs => clean x && cleanList xs

def cleanObj : List (String × JSValue) → Bool
  | [] => true
  | (_, v) :: fs => clean v && cleanObj fs
end

mutual
theorem parse_serialize (v : JSValue) (h : clean v = true) :
    ∃ a, serialize v = .ok a ∧ parse a = v := by
  match v with
  | .nullv => exact ⟨.NULL, rfl, rfl⟩
  | .undefined => simp [clean] at h
  | .str s =>
      have hs : ¬s = "" := by simpa [clean] using h
      exact ⟨.S s, by simp [serialize, hs], rfl⟩
  | .buf bytes =>
      have hb : ∀ b ∈ bytes, b < 256 := by simpa [clean, List.all_eq_true] using h
      exact ⟨.B (b64encode bytes), rfl, by simp [parse, b64decode_encode bytes hb]⟩
  | .bool b => exact ⟨.BOOL b, rfl, rfl⟩
  | .num n =>
      exact ⟨.N (numToStr n), rfl, by simp [parse, parseDec_numToStr]⟩
  | .arr elems =>
      have he : cleanList elems = true := by simpa [clean] using h
      obtain ⟨as, h1, h2⟩ := parseList_serializeList elems he
      exact ⟨.L as, by simp [serialize, h1], by simp [parse, h2]⟩
  | .obj fields =>
      have hf : cleanObj fields = true := by simpa [clean] using h
      obtain ⟨fs, h1, h2⟩ := parseObj_serializeObj fields hf
      exact ⟨.M fs, by simp [serialize, h1], by simp [parse, h2]⟩
  | .other t => simp [clean] at h

theorem parseList_serializeList (xs : List JSValue) (h : cleanList xs = true) :
    ∃ as, serializeList xs = .ok as ∧ parseList as = xs := by
  match xs with
  | [] => exact ⟨[], rfl, rfl⟩
  | x :: rest =>
      have hx : clean x = true ∧ cleanList rest = true := by
        simpa [cleanList, Bool.and_eq_true] using h
      obtain ⟨a, ha1, ha2⟩ := parse_serialize x hx.1
      obtain ⟨as, has1, has2⟩ := parseList_serializeList rest hx.2
      exact ⟨a :: as, by simp [serializeList, ha1, has1], by simp [parseList, ha2, has2]⟩

theorem parseObj_serializeObj (fs : List (String × JSValue)) (h : cleanObj fs = true) :
    ∃ afs, serializeObj fs = .ok afs ∧ parseObj afs = fs := by
  match fs with
  | [] => exact ⟨[], rfl, rfl⟩
  | (k, v) :: rest =>
      have hx : clean v = true ∧ cleanObj rest = true := by
        simpa [cleanObj, Bool.and_eq_true] using h
      obtain ⟨a, ha1, ha2⟩ := parse_serialize v hx.1
      obtain ⟨afs, has1, has2⟩ := parseObj_serializeObj rest hx.2
      exact ⟨(k, a) :: afs, by simp [serializeObj, ha1, has1], by simp [parseObj, ha2, has2]⟩
end

/-- C1 (amended): the codec round-trips every value of the union that
    contains no empty string and no undefined at any depth (buffer bytes
    being bytes): serialize succeeds and parse inverts it.  The original
    claim excepted only the top-level null/empty-string collapse, but the
    collapse also happens to empty strings nested inside lists and maps. -/
theorem C1_roundtrip (v : JSValue) (h : clean v = true) :
    ∃ a, serialize v = .ok a ∧ parse a = v :=
  parse_serialize v h

theorem C1_roundtrip_witness :
    clean (JSValue.arr [.str "a", .num 5, .obj [("k", .bool true)],
      .buf [0, 255], .nullv]) = true ∧
    ∃ a, serialize (JSValue.arr [.str "a", .num 5, .obj [("k", .bool true)],
      .buf [0, 255], .nullv]) = .ok a ∧
      parse a = JSValue.arr [.str "a", .num 5, .obj [("k", .bool true)],
        .buf [0, 255], .nullv] :=
  ⟨by decide, C1_roundtrip _ (by decide)⟩

/-- C1 counterexample: the list containing one empty string is a Native
    Value, is not the null/empty-string collapse case itself, yet decodes
    to the list containing null: parse(serialize([""])) = [null] ≠ [""]. -/
theorem C1_counterexample :
    JSValue.arr [.str ""] ≠ .nullv ∧
    JSValue.arr [.str ""] ≠ .str "" ∧
    serialize (JSValue.arr [.str ""]) = .ok (.L [.NULL]) ∧
    parse (.L [.NULL]) = .arr [.nullv] ∧
    JSValue.arr [.nullv] ≠ JSValue.arr [.str ""] := by
  refine ⟨by simp, by simp, rfl, rfl, by simp⟩

/-- C9: serialize maps null, undefined (an absent value), and the empty
    string to the NULL tag, and fails for a value outside the union with
    an error naming the offending constructor name. -/
theorem C9_null_collapse_and_unsupported :
    serialize .nullv = .ok .NULL ∧
    serialize .undefined = .ok .NULL ∧
    serialize (.str "") = .ok .NULL ∧
    ∀ typeName : String,
      serialize (.other typeName) = .error ("Cannot serialize " ++ typeName) :=
  ⟨rfl, rfl, rfl, fun _ => rfl⟩

/-! ### Schema and the key/item mapper (_toItem lines 157-164, _toKV 166-173) -/

structure HashKey where
  name : String
  value : String

structure RangeKey where
  name : String

structure Schema where
  hash : HashKey
  range : RangeKey

/-- A JS object as dynamo-down manipulates it: fields in insertion order,
    keys unique. -/
def JSObj := List (String × JSValue)

/-- JS property assignment obj[k] = v: overwrite in place, else append. -/
def setField (k : String) (v : α) : List (String × α) → List (String × α)
  | [] => [(k, v)]
  | (k', v') :: fs => if k' = k then (k, v) :: fs else (k', v') :: setField k v fs

/-- JS property read obj[k]. -/
def getField (k : String) : List (String × α) → Option α
  | [] => none
  | (k', v') :: fs => if k' = k then some v' else getField k fs

/-- JS delete obj[k] (keys are unique in objects built by the source). -/
def delField (k : String) (fs : List (String × α)) : List (String × α) :=
  fs.filter (fun f => f.1 ≠ k)

/-- _toItem (lines 157-164): start from the JSON-decoded value (an
    optional object; none models an absent/falsy value giving `{}`), set
    the hash attribute to the schema's fixed hash value and the range
    attribute to the key, serialize and take the M payload.  The record
    value crosses the boundary as JSON text; it is modelled already
    parsed, matching the claim's comparison after a JSON round-trip. -/
def toItem (schema : Schema) (key : String) (value : Option JSObj) :
    Except String (List (String × AttrValue)) :=
  let item0 : List (String × JSValue) := value.getD []
  let item1 := setField schema.hash.name (.str schema.hash.value) item0
  let item2 := setField schema.range.name (.str key) item1
  match serialize (.obj item2) with
  | .error e => .error e
  | .ok (.M fs) => .ok fs
  | .ok _ => .ok []

/-- _toKV (lines 166-173): decode the item as a map, read the range
    attribute as the key (undefined when missing), delete the hash
    attribute only, and return the rest as the value. -/
def toKV (schema : Schema) (item : List (String × AttrValue)) :
    JSValue × List (String × JSValue) :=
  let value := parseObj item
  let key := (getField schema.range.name value).getD .undefined
  (key, delField schema.hash.name value)

theorem getField_setField_self (k : String) (v : α) (fs : List (String × α)) :
    getField k (setField k v fs) = some v := by
  induction fs with
  | nil => simp [setField, getField]
  | cons f rest ih =>
      obtain ⟨k', v'⟩ := f
      by_cases hk : k' = k
      · simp [setField, hk, getField]
      · simp [setField, hk, getField, ih]

theorem getField_setField_ne (k q : String) (h : q ≠ k) (v : α)
    (fs : List (String × α)) : getField q (setField k v fs) = getField q fs := by
  have hkq : ¬k = q := fun hh => h hh.symm
  induction fs with
  | nil => simp [setField, getField, hkq]
  | cons f rest ih =>
      obtain ⟨k', v'⟩ := f
      by_cases hk : k' = k
      · subst hk
        simp [setField, getField, hkq]
      · by_cases hq : k' = q
        · subst hq
          simp [setField, hk, getField]
        · simp [setField, hk, getField, hq, ih]

theorem getField_delField (k q : String) (fs : List (String × α)) :
    getField q (delField k fs) =
      if q = k then none else getField q fs := by
  induction fs with
  | nil => simp [delField, getField]
  | cons f rest ih =>
      obtain ⟨k', v'⟩ := f
      by_cases hk : k' = k
      · subst hk
        have hdrop : delField k' ((k', v') :: rest) = delField k' rest := by
          simp [delField]
        rw [hdrop, ih]
        by_cases hq : q = k'
        · simp [hq]
        · have hne : ¬k' = q := fun hh => hq hh.symm
          simp [hq, getField, hne]
      · have hkeep : delField k ((k', v') :: rest) = (k', v') :: delField k rest := by
          simp [delField, hk]
        rw [hkeep]
        by_cases hq : k' = q
        · subst hq
          simp [getField, hk]
        · simp [getField, hq, ih]

theorem cleanObj_setField (k : String) (v : JSValue) (fs : List (String × JSValue))
    (hv : clean v = true) (hfs : cleanObj fs = true) :
    cleanObj (setField k v fs) = true := by
  induction fs with
  | nil => simp [setField, cleanObj, hv]
  | cons f rest ih =>
      obtain ⟨k', v'⟩ := f
      have h2 : clean v' = true ∧ cleanObj rest = true := by
        simpa [cleanObj, Bool.and_eq_true] using hfs
      by_cases hk : k' = k
      · simp [setField, hk, cleanObj, Bool.and_eq_true, hv, h2.2]
      · simp [setField, hk, cleanObj, Bool.and_eq_true, h2.1, ih h2.2]

/-- C2 (amended): the mapper round-trip reproduces the key, but the value
    comes back with the hash attribute removed and the range attribute set
    to the key: _toKV deletes only the hash attribute, so the range
    attribute stays in the returned value.  (Field lookup is compared,
    which on the unique-keyed objects of the source determines the
    object.)  Hypotheses: the key, the fixed hash value, and the stored
    fields must survive the codec (no empty strings / undefined). -/
theorem C2_mapper (schema : Schema) (key : String) (value : JSObj)
    (hkey : key ≠ "") (hhv : schema.hash.value ≠ "")
    (hval : cleanObj value = true) :
    ∃ item, toItem schema key (some value) = .ok item ∧
      (toKV schema item).1 = .str key ∧
      ∀ f : String, getField f (toKV schema item).2 =
        if f = schema.hash.name then none
        else if f = schema.range.name then some (.str key)
        else getField f value := by
  have hclean2 : cleanObj (setField schema.range.name (.str key)
      (setField schema.hash.name (.str schema.hash.value) value)) = true := by
    apply cleanObj_setField
    · simpa [clean] using hkey
    · apply cleanObj_setField
      · simpa [clean] using hhv
      · exact hval
  obtain ⟨afs, h1, h2⟩ := parseObj_serializeObj _ hclean2
  refine ⟨afs, ?_, ?_, ?_⟩
  · unfold toItem
    simp [serialize, h1]
  · unfold toKV
    simp [h2, getField_setField_self]
  · intro f
    unfold toKV
    simp only [h2]
    rw [getField_delField]
    by_cases hfh : f = schema.hash.name
    · simp [hfh]
    · rw [if_neg hfh, if_neg hfh]
      by_cases hfr : f = schema.range.name
      · subst hfr
        simp [getField_setField_self]
      · rw [getField_setField_ne _ _ hfr, getField_setField_ne _ _ hfh, if_neg hfr]

theorem C2_mapper_witness :
    ("k" : String) ≠ "" ∧
    ∃ item, toItem ⟨⟨"h", "H"⟩, ⟨"r"⟩⟩ "k" (some [("a", .bool true)]) = .ok item ∧
      (toKV ⟨⟨"h", "H"⟩, ⟨"r"⟩⟩ item).1 = .str "k" ∧
      ∀ f : String, getField f (toKV ⟨⟨"h", "H"⟩, ⟨"r"⟩⟩ item).2 =
        if f = "h" then none
        else if f = "r" then some (.str "k")
        else getField f [("a", .bool true)] :=
  ⟨by decide, C2_mapper ⟨⟨"h", "H"⟩, ⟨"r"⟩⟩ "k" [("a", .bool true)]
    (by decide) (by decide) (by decide)⟩

/-- C2 counterexample: with schema hash attribute "h" (fixed value "H")
    and range attribute "r", the empty record value comes back as
    \x7b"r": "k"\x7d, not as the original empty object: _toKV removed the
    hash attribute but kept the range attribute in the value. -/
theorem C2_counterexample :
    toItem ⟨⟨"h", "H"⟩, ⟨"r"⟩⟩ "k" (some []) = .ok [("h", .S "H"), ("r", .S "k")] ∧
    toKV ⟨⟨"h", "H"⟩, ⟨"r"⟩⟩ [("h", .S "H"), ("r", .S "k")]
      = (.str "k", [("r", .str "k")]) ∧
    ([("r", JSValue.str "k")] : List (String × JSValue)) ≠ [] :=
  ⟨rfl, rfl, by simp⟩

/-! ### Batch request mapping (_batch lines 236-240) -/

inductive WriteReq where
  | PutRequest (Item : List (String × AttrValue))
  | DeleteRequest (Key : List (String × AttrValue))

structure BatchOp where
  type : String
  key : String
  value : Option JSObj

/-- One entry of the _batch map (lines 236-240): exactly the type "del"
    becomes a DeleteRequest built from the key alone; any other type
    becomes a PutRequest with the full item. -/
def toWriteReq (schema : Schema) (op : BatchOp) : Except String WriteReq :=
  if op.type = "del" then
    match toItem schema op.key none with
    | .error e => .error e
    | .ok k => .ok (.DeleteRequest k)
  else
    match toItem schema op.key op.value with
    | .error e => .error e
    | .ok it => .ok (.PutRequest it)

/-- C10: only an entry whose type is exactly "del" becomes a delete
    request, carrying only the encoded key item (value absent); an entry
    of any other type value becomes a put request with the full item. -/
theorem C10_batch_mapping (schema : Schema) (op : BatchOp) :
    (op.type = "del" →
      toWriteReq schema op = (toItem schema op.key none).map WriteReq.DeleteRequest) ∧
    (op.type ≠ "del" →
      toWriteReq schema op = (toItem schema op.key op.value).map WriteReq.PutRequest) := by
  constructor
  · intro h
    unfold toWriteReq
    rw [if_pos h]
    cases toItem schema op.key none <;> rfl
  · intro h
    unfold toWriteReq
    rw [if_neg h]
    cases toItem schema op.key op.value <;> rfl

theorem C10_batch_mapping_witness :
    toWriteReq ⟨⟨"h", "H"⟩, ⟨"r"⟩⟩ ⟨"del", "k", some [("a", .bool true)]⟩
      = (toItem ⟨⟨"h", "H"⟩, ⟨"r"⟩⟩ "k" none).map WriteReq.DeleteRequest ∧
    toWriteReq ⟨⟨"h", "H"⟩, ⟨"r"⟩⟩ ⟨"frobnicate", "k", some [("a", .bool true)]⟩
      = (toItem ⟨⟨"h", "H"⟩, ⟨"r"⟩⟩ "k" (some [("a", .bool true)])).map WriteReq.PutRequest :=
  ⟨(C10_batch_mapping ⟨⟨"h", "H"⟩, ⟨"r"⟩⟩ ⟨"del", "k", some [("a", .bool true)]⟩).1 rfl,
   (C10_batch_mapping ⟨⟨"h", "H"⟩, ⟨"r"⟩⟩ ⟨"frobnicate", "k", some [("a", .bool true)]⟩).2
     (by decide)⟩

/-! ### Range query planner (DynamoIterator constructor, lines 47-110) -/

structure IterOptions where
  gt : Option String
  gte : Option String
  lt : Option String
  lte : Option String
  limit : Int
  reverse : Bool

structure Bound where
  key : JSValue
  inclusive : Bool

/-- JS a || b over two optional bound keys (absent = undefined): first
    truthy operand, else the second operand as is ("" is falsy). -/
def jsOr : Option String → Option String → JSValue
  | some s, b =>
      if s = "" then (match b with | some t => .str t | none => .undefined) else .str s
  | none, some t => .str t
  | none, none => .undefined

/-- Lines 57-62: lower bound taken when gt or gte is present; the key is
    options.gt || options.gte and the inclusive flag is "gte" in options. -/
def lowerBound (o : IterOptions) : Option Bound :=
  if o.gt.isSome || o.gte.isSome then some ⟨jsOr o.gt o.gte, o.gte.isSome⟩
  else none

/-- Lines 64-69: upper bound from lt/lte, inclusive iff lte is present. -/
def upperBound (o : IterOptions) : Option Bound :=
  if o.lt.isSome || o.lte.isSome then some ⟨jsOr o.lt o.lte, o.lte.isSome⟩
  else none

structure KeyCondition where
  ComparisonOperator : String
  AttributeValueList : List AttrValue

/-- Lines 71-106: the KeyConditions object.  Always an EQ condition on
    the hash attribute with the serialized fixed hash value; then BETWEEN
    when both bounds are present, GE/GT for a lower bound alone, LE/LT
    for an upper bound alone. -/
def keyConditions (schema : Schema) (o : IterOptions) :
    Except String (List (String × KeyCondition)) :=
  match serialize (.str schema.hash.value) with
  | .error e => .error e
  | .ok hv =>
    let conds := setField schema.hash.name ⟨"EQ", [hv]⟩ []
    match lowerBound o, upperBound o with
    | some lb, some ub =>
        match serialize lb.key, serialize ub.key with
        | .ok a, .ok b =>
            .ok (setField schema.range.name ⟨"BETWEEN", [a, b]⟩ conds)
        | .error e, _ => .error e
        | _, .error e => .error e
    | some lb, none =>
        match serialize lb.key with
        | .ok a =>
            .ok (setField schema.range.name
              ⟨if lb.inclusive then "GE" else "GT", [a]⟩ conds)
        | .error e => .error e
    | none, some ub =>
        match serialize ub.key with
        | .ok a =>
            .ok (setField schema.range.name
              ⟨if ub.inclusive then "LE" else "LT", [a]⟩ conds)
        | .error e => .error e
    | none, none => .ok conds

/-- What serialize returns on a plain string. -/
def encStr (s : String) : AttrValue := if s = "" then .NULL else .S s

/-- What serialize returns on a bound key (always a string or undefined). -/
def encKey : JSValue → AttrValue
  | .str s => encStr s
  | _ => .NULL

theorem serialize_str (s : String) :
    serialize (.str s) = .ok (encStr s) := by
  by_cases h : s = "" <;> simp [serialize, encStr, h]

theorem serialize_jsOr (a b : Option String) :
    serialize (jsOr a b) = .ok (encKey (jsOr a b)) := by
  cases a with
  | none =>
      cases b with
      | none => rfl
      | some t => exact serialize_str t
  | some s =>
      by_cases h : s = ""
      · cases b with
        | none => simp [jsOr, h]; rfl
        | some t => simp [jsOr, h]; exact serialize_str t
      · simp [jsOr, h]; exact serialize_str s

theorem lowerBound_key (o : IterOptions) (lb : Bound) (h : lowerBound o = some lb) :
    lb.key = jsOr o.gt o.gte ∧ lb.inclusive = o.gte.isSome := by
  unfold lowerBound at h
  by_cases hc : o.gt.isSome || o.gte.isSome
  · rw [if_pos hc] at h
    cases h
    exact ⟨rfl, rfl⟩
  · rw [if_neg hc] at h
    cases h

theorem upperBound_key (o : IterOptions) (ub : Bound) (h : upperBound o = some ub) :
    ub.key = jsOr o.lt o.lte ∧ ub.inclusive = o.lte.isSome := by
  unfold upperBound at h
  by_cases hc : o.lt.isSome || o.lte.isSome
  · rw [if_pos hc] at h
    cases h
    exact ⟨rfl, rfl⟩
  · rw [if_neg hc] at h
    cases h

/-- The planner's condition set, fully characterised (helper shared by
    the planner claims). -/
theorem keyConditions_spec (schema : Schema) (o : IterOptions)
    (hne : schema.hash.name ≠ schema.range.name) :
    ∃ m, keyConditions schema o = .ok m ∧
      getField schema.hash.name m = some ⟨"EQ", [encStr schema.hash.value]⟩ ∧
      (∀ lb ub, lowerBound o = some lb → upperBound o = some ub →
        getField schema.range.name m
          = some ⟨"BETWEEN", [encKey lb.key, encKey ub.key]⟩) ∧
      (∀ lb, lowerBound o = some lb → upperBound o = none →
        getField schema.range.name m
          = some ⟨if lb.inclusive then "GE" else "GT", [encKey lb.key]⟩) ∧
      (∀ ub, lowerBound o = none → upperBound o = some ub →
        getField schema.range.name m
          = some ⟨if ub.inclusive then "LE" else "LT", [encKey ub.key]⟩) := by
  have hhv := serialize_str schema.hash.value
  have hhash : ∀ c : KeyCondition,
      getField schema.hash.name
        (setField schema.range.name c
          (setField schema.hash.name ⟨"EQ", [encStr schema.hash.value]⟩ [])) =
        some ⟨"EQ", [encStr schema.hash.value]⟩ := by
    intro c
    rw [getField_setField_ne _ _ hne, getField_setField_self]
  cases hl : lowerBound o with
  | some lb =>
      obtain ⟨hlk, _⟩ := lowerBound_key o lb hl
      have hser_l : serialize lb.key = .ok (encKey lb.key) := by
        rw [hlk]; exact serialize_jsOr o.gt o.gte
      cases hu : upperBound o with
      | some ub =>
          obtain ⟨huk, _⟩ := upperBound_key o ub hu
          have hser_u : serialize ub.key = .ok (encKey ub.key) := by
            rw [huk]; exact serialize_jsOr o.lt o.lte
          have hM : keyConditions schema o
              = .ok (setField schema.range.name
                  ⟨"BETWEEN", [encKey lb.key, encKey ub.key]⟩
                  (setField schema.hash.name
                    ⟨"EQ", [encStr schema.hash.value]⟩ [])) := by
            unfold keyConditions
            rw [hhv]
            dsimp only
            rw [hl, hu]
            dsimp only
            rw [hser_l, hser_u]
          refine ⟨_, hM, hhash _, ?_, ?_, ?_⟩
          · intro lb' ub' hl' hu'
            cases hl'
            cases hu'
            rw [getField_setField_self]
          · intro lb' hl' hu'
            cases hu'
          · intro ub' hl' hu'
            cases hl'
      | none =>
          have hM : keyConditions schema o
              = .ok (setField schema.range.name
                  ⟨if lb.inclusive then "GE" else "GT", [encKey lb.key]⟩
                  (setField schema.hash.name
                    ⟨"EQ", [encStr schema.hash.value]⟩ [])) := by
            unfold keyConditions
            rw [hhv]
            dsimp only
            rw [hl, hu]
            dsimp only
            rw [hser_l]
          refine ⟨_, hM, hhash _, ?_, ?_, ?_⟩
          · intro lb' ub' hl' hu'
            cases hu'
          · intro lb' hl' hu'
            cases hl'
            rw [getField_setField_self]
          · intro ub' hl' hu'
            cases hl'
  | none =>
      cases hu : upperBound o with
      | some ub =>
          obtain ⟨huk, _⟩ := upperBound_key o ub hu
          have hser_u : serialize ub.key = .ok (encKey ub.key) := by
            rw [huk]; exact serialize_jsOr o.lt o.lte
          have hM : keyConditions schema o
              = .ok (setField schema.range.name
                  ⟨if ub.inclusive then "LE" else "LT", [encKey ub.key]⟩
                  (setField schema.hash.name
                    ⟨"EQ", [encStr schema.hash.value]⟩ [])) := by
            unfold keyConditions
            rw [hhv]
            dsimp only
            rw [hl, hu]
            dsimp only
            rw [hser_u]
          refine ⟨_, hM, hhash _, ?_, ?_, ?_⟩
          · intro lb' ub' hl' hu'
            cases hl'
          · intro lb' hl' hu'
            cases hl'
          · intro ub' hl' hu'
            cases hu'
            rw [getField_setField_self]
      | none =>
          have hM : keyConditions schema o
              = .ok (setField schema.hash.name
                  ⟨"EQ", [encStr schema.hash.value]⟩ []) := by
            unfold keyConditions
            rw [hhv]
            dsimp only
            rw [hl, hu]
          refine ⟨_, hM, ?_, ?_, ?_, ?_⟩
          · rw [getField_setField_self]
          · intro lb' ub' hl' hu'
            cases hl'
          · intro lb' hl' hu'
            cases hl'
          · intro ub' hl' hu'
            cases hu'

/-- C3: the planned condition set always carries an EQ condition on the
    hash attribute with the encoded fixed hash value; with both bounds
    present, a single BETWEEN over [lower, upper]; with only a lower
    bound, GE when it is inclusive and GT otherwise; with only an upper
    bound, LE when inclusive and LT otherwise. -/
theorem C3_query_planning (schema : Schema) (o : IterOptions)
    (hne : schema.hash.name ≠ schema.range.name) :
    ∃ m, keyConditions schema o = .ok m ∧
      getField schema.hash.name m = some ⟨"EQ", [encStr schema.hash.value]⟩ ∧
      (∀ lb ub, lowerBound o = some lb → upperBound o = some ub →
        getField schema.range.name m
          = some ⟨"BETWEEN", [encKey lb.key, encKey ub.key]⟩) ∧
      (∀ lb, lowerBound o = some lb → upperBound o = none →
        getField schema.range.name m
          = some ⟨if lb.inclusive then "GE" else "GT", [encKey lb.key]⟩) ∧
      (∀ ub, lowerBound o = none → upperBound o = some ub →
        getField schema.range.name m
          = some ⟨if ub.inclusive then "LE" else "LT", [encKey ub.key]⟩) :=
  keyConditions_spec schema o hne

theorem C3_query_planning_witness :
    ∃ m, keyConditions ⟨⟨"h", "H"⟩, ⟨"r"⟩⟩ ⟨none, some "a", some "m", none, -1, false⟩
        = .ok m ∧
      getField "h" m = some ⟨"EQ", [encStr "H"]⟩ ∧
      (∀ lb ub, lowerBound ⟨none, some "a", some "m", none, -1, false⟩ = some lb →
        upperBound ⟨none, some "a", some "m", none, -1, false⟩ = some ub →
        getField "r" m = some ⟨"BETWEEN", [encKey lb.key, encKey ub.key]⟩) ∧
      (∀ lb, lowerBound ⟨none, some "a", some "m", none, -1, false⟩ = some lb →
        upperBound ⟨none, some "a", some "m", none, -1, false⟩ = none →
        getField "r" m = some ⟨if lb.inclusive then "GE" else "GT", [encKey lb.key]⟩) ∧
      (∀ ub, lowerBound ⟨none, some "a", some "m", none, -1, false⟩ = none →
        upperBound ⟨none, some "a", some "m", none, -1, false⟩ = some ub →
        getField "r" m = some ⟨if ub.inclusive then "LE" else "LT", [encKey ub.key]⟩) :=
  C3_query_planning ⟨⟨"h", "H"⟩, ⟨"r"⟩⟩ ⟨none, some "a", some "m", none, -1, false⟩
    (by decide)

/-- C4 (amended): when both gt and gte are supplied the comparison is
    inclusive (GE, the flag following gte), but the bound's key is gt's
    key whenever gt is truthy (non-empty), falling back to gte's key only
    for an empty gt, because the source computes options.gt || options.gte;
    symmetrically lt's key wins over lte's for the LE upper bound. -/
theorem C4_bound_precedence (schema : Schema)
    (hne : schema.hash.name ≠ schema.range.name) (g g' u u' : String) :
    lowerBound ⟨some g, some g', none, none, -1, false⟩
      = some ⟨if g = "" then .str g' else .str g, true⟩ ∧
    upperBound ⟨none, none, some u, some u', -1, false⟩
      = some ⟨if u = "" then .str u' else .str u, true⟩ ∧
    (∃ m, keyConditions schema ⟨some g, some g', none, none, -1, false⟩ = .ok m ∧
      getField schema.range.name m
        = some ⟨"GE", [encStr (if g = "" then g' else g)]⟩) ∧
    (∃ m, keyConditions schema ⟨none, none, some u, some u', -1, false⟩ = .ok m ∧
      getField schema.range.name m
        = some ⟨"LE", [encStr (if u = "" then u' else u)]⟩) := by
  have hjsl : jsOr (some g) (some g') = if g = "" then .str g' else .str g := by
    by_cases h : g = "" <;> simp [jsOr, h]
  have hjsu : jsOr (some u) (some u') = if u = "" then .str u' else .str u := by
    by_cases h : u = "" <;> simp [jsOr, h]
  have hencl : encKey (if g = "" then JSValue.str g' else JSValue.str g)
      = encStr (if g = "" then g' else g) := by
    by_cases h : g = "" <;> simp [encKey, h]
  have hencu : encKey (if u = "" then JSValue.str u' else JSValue.str u)
      = encStr (if u = "" then u' else u) := by
    by_cases h : u = "" <;> simp [encKey, h]
  have hlb : lowerBound ⟨some g, some g', none, none, -1, false⟩
      = some ⟨if g = "" then .str g' else .str g, true⟩ := by
    unfold lowerBound
    simp [hjsl]
  have hub : upperBound ⟨none, none, some u, some u', -1, false⟩
      = some ⟨if u = "" then .str u' else .str u, true⟩ := by
    unfold upperBound
    simp [hjsu]
  refine ⟨hlb, hub, ?_, ?_⟩
  · obtain ⟨m, hm, _, _, hlo, _⟩ :=
      keyConditions_spec schema ⟨some g, some g', none, none, -1, false⟩ hne
    have hup : upperBound ⟨some g, some g', none, none, -1, false⟩ = none := by
      unfold upperBound
      simp
    refine ⟨m, hm, ?_⟩
    have := hlo _ hlb hup
    simpa [hencl] using this
  · obtain ⟨m, hm, _, _, _, hhi⟩ :=
      keyConditions_spec schema ⟨none, none, some u, some u', -1, false⟩ hne
    have hlo2 : lowerBound ⟨none, none, some u, some u', -1, false⟩ = none := by
      unfold lowerBound
      simp
    refine ⟨m, hm, ?_⟩
    have := hhi _ hlo2 hub
    simpa [hencu] using this

theorem C4_bound_precedence_witness :
    lowerBound ⟨some "b", some "a", none, none, -1, false⟩
      = some ⟨if "b" = "" then .str "a" else .str "b", true⟩ ∧
    upperBound ⟨none, none, some "n", some "m", -1, false⟩
      = some ⟨if "n" = "" then .str "m" else .str "n", true⟩ ∧
    (∃ m, keyConditions ⟨⟨"h", "H"⟩, ⟨"r"⟩⟩ ⟨some "b", some "a", none, none, -1, false⟩
        = .ok m ∧
      getField "r" m = some ⟨"GE", [encStr (if "b" = "" then "a" else "b")]⟩) ∧
    (∃ m, keyConditions ⟨⟨"h", "H"⟩, ⟨"r"⟩⟩ ⟨none, none, some "n", some "m", -1, false⟩
        = .ok m ∧
      getField "r" m = some ⟨"LE", [encStr (if "n" = "" then "m" else "n")]⟩) :=
  C4_bound_precedence ⟨⟨"h", "H"⟩, ⟨"r"⟩⟩ (by decide) "b" "a" "n" "m"

/-- C4 counterexample: with gt = "b" and gte = "a" both supplied, the
    planner produces the inclusive operator GE but with gt's key "b", not
    gte's key "a" as the claim states. -/
theorem C4_counterexample :
    lowerBound ⟨some "b", some "a", none, none, -1, false⟩ = some ⟨.str "b", true⟩ ∧
    keyConditions ⟨⟨"h", "H"⟩, ⟨"r"⟩⟩ ⟨some "b", some "a", none, none, -1, false⟩
      = .ok [("h", ⟨"EQ", [.S "H"]⟩), ("r", ⟨"GE", [.S "b"]⟩)] ∧
    AttrValue.S "b" ≠ AttrValue.S "a" :=
  ⟨rfl, rfl, by simp⟩

/-! ### JSON.stringify (a plain output boundary; only its existence
    matters to the claims, none of which inspect the produced text) -/

def jsonEscChar (c : Char) : String :=
  if c = '"' then "\\\"" else if c = '\\' then "\\\\" else String.singleton c

def jsonQuote (s : String) : String :=
  "\"" ++ (s.data.foldr (fun c acc => jsonEscChar c ++ acc) "") ++ "\""

mutual
def jsonStringify : JSValue → String
  | .nullv => "null"
  | .undefined => "null"
  | .str s => jsonQuote s
  | .num n => numToStr n
  | .bool b => if b then "true" else "false"
  | .buf bytes =>
      "\x7b\"type\":\"Buffer\",\"data\":[" ++
        String.intercalate "," (bytes.map natToStr) ++ "]\x7d"
  | .arr elems => "[" ++ jsonArr elems ++ "]"
  | .obj fields => "\x7b" ++ jsonObjStr fields ++ "\x7d"
  | .other _ => "null"

def jsonArr : List JSValue → String
  | [] => ""
  | [x] => jsonStringify x
  | x :: xs => jsonStringify x ++ "," ++ jsonArr xs

def jsonObjStr : List (String × JSValue) → String
  | [] => ""
  | [(k, v)] => jsonQuote k ++ ":" ++ jsonStringify v
  | (k, v) :: fs => jsonQuote k ++ ":" ++ jsonStringify v ++ "," ++ jsonObjStr fs
end

/-! ### The get path (_get, lines 190-209) -/

/-- A JS Error object (only its message is modelled). -/
structure JsErr where
  message : String

/-- The value handed to the get callback: value.value for a non-json
    valueEncoding, JSON text otherwise. -/
inductive GetValue where
  | plain (v : JSValue)
  | text (s : String)

structure GetOptions where
  valueEncoding : Option String
  asBuffer : Option Bool

/-- _get (lines 190-209).  The provider getItem response is passed in:
    an error, no Item, or an Item.  A provider error is forwarded to the
    callback as is; a missing Item becomes Error("NotFound"); otherwise
    the item is decoded with _toKV and shaped by valueEncoding, and
    asBuffer !== false wraps the result in a Buffer (modelled as the
    Bool in the result pair). -/
def dynamoGet (schema : Schema) (opts : GetOptions)
    (resp : Except JsErr (Option (List (String × AttrValue)))) :
    Except JsErr (GetValue × Bool) :=
  match resp with
  | .error e => .error e
  | .ok none => .error ⟨"NotFound"⟩
  | .ok (some it) =>
      let value := (toKV schema it).2
      let isValue := opts.valueEncoding ≠ some "json"
      let item : GetValue :=
        if isValue then .plain ((getField "value" value).getD .undefined)
        else .text (jsonStringify (.obj value))
      .ok (item, opts.asBuffer ≠ some false)

/-- C8: get fails with NotFound exactly when the provider reports no
    item for the key, and a hard provider error during get is forwarded
    to the caller as the very same error value, unmodified. -/
theorem C8_get_errors (schema : Schema) (opts : GetOptions) :
    (∀ e : JsErr, dynamoGet schema opts (.error e) = .error e) ∧
    dynamoGet schema opts (.ok none) = .error ⟨"NotFound"⟩ :=
  ⟨fun _ => rfl, rfl⟩

/-! ### Paginating iterator (DynamoIterator._next, lines 112-140)

    The provider is modelled as the list of pages its successive query
    calls return: each page carries data.Items and whether a
    LastEvaluatedKey (continuation token) was present.  _next pops a
    buffered entry if the cursor points at one; a null sentinel (pushed
    when a page had no continuation token) or reaching the limit with a
    drained buffer ends the sequence; otherwise a query is issued, the
    page is decoded entry-by-entry through _toKV into the buffer and
    _next recurses. -/

structure Page where
  items : List (List (String × AttrValue))
  hasMore : Bool

structure IterState where
  items : List (Option (JSValue × List (String × JSValue)))
  cursor : Nat
  limit : Option Int
  queries : Nat

/-- Lines 51-52: Infinity unless options.limit !== -1. -/
def initLimit (o : IterOptions) : Option Int :=
  if o.limit = -1 then none else some o.limit

def initIter (o : IterOptions) : IterState := ⟨[], 0, initLimit o, 0⟩

/-- The buffer entries one page contributes (lines 133-135): each item
    decoded by _toKV, then a null sentinel when no LastEvaluatedKey. -/
def pageEntries (schema : Schema) (p : Page) :
    List (Option (JSValue × List (String × JSValue))) :=
  (p.items.map (toKV schema)).map some ++ (if p.hasMore then [] else [none])

/-- One query round-trip (lines 128-137). -/
def fill (schema : Schema) (st : IterState) (p : Page) : IterState :=
  { st with items := st.items ++ pageEntries schema p,
            queries := st.queries + 1 }

/-- What _next hands the callback for one buffered record (line 117):
    the key and JSON.stringify of the value. -/
def yieldOf (kv : JSValue × List (String × JSValue)) : JSValue × String :=
  (kv.1, jsonStringify (.obj kv.2))

inductive NextRes where
  | yield (key : JSValue) (value : String)
  | done
  | fail

/-- One _next call (lines 112-140).  fail stands for a query issued with
    no provider response left in the environment (the claims always
    supply enough pages). -/
def nextRaw (schema : Schema) : List Page → IterState → NextRes × IterState × List Page
  | env, st =>
    match st.items[st.cursor]? with
    | some (some kv) =>
        (.yield kv.1 (jsonStringify (.obj kv.2)), { st with cursor := st.cursor + 1 }, env)
    | some none => (.done, st, env)
    | none =>
        if st.limit = some (st.cursor : Int) then (.done, st, env)
        else
          match env with
          | [] => (.fail, st, [])
          | p :: env' => nextRaw schema env' (fill schema st p)

structure DriveOut where
  ys : List (JSValue × String)
  res : NextRes
  st : IterState
  env : List Page

/-- Repeated _next calls: collect the yielded records until
    end-of-sequence (res = done), a provider failure, or fuel runs out
    (res = fail). -/
def drive (schema : Schema) : Nat → IterState → List Page → DriveOut
  | 0, st, env => ⟨[], .fail, st, env⟩
  | n + 1, st, env =>
      match nextRaw schema env st with
      | (.yield k v, st', env') =>
          let r := drive schema n st' env'
          ⟨(k, v) :: r.ys, r.res, r.st, r.env⟩
      | (.done, st', env') => ⟨[], .done, st', env'⟩
      | (.fail, st', env') => ⟨[], .fail, st', env'⟩

theorem nextRaw_yield (schema : Schema) (env : List Page) (st : IterState)
    (kv : JSValue × List (String × JSValue))
    (h : st.items[st.cursor]? = some (some kv)) :
    nextRaw schema env st =
      (.yield kv.1 (jsonStringify (.obj kv.2)),
       { st with cursor := st.cursor + 1 }, env) := by
  cases env <;> simp [nextRaw, h]

theorem nextRaw_sentinel (schema : Schema) (env : List Page) (st : IterState)
    (h : st.items[st.cursor]? = some none) :
    nextRaw schema env st = (.done, st, env) := by
  cases env <;> simp [nextRaw, h]

theorem nextRaw_limit (schema : Schema) (env : List Page) (st : IterState)
    (h1 : st.items[st.cursor]? = none)
    (h2 : st.limit = some (st.cursor : Int)) :
    nextRaw schema env st = (.done, st, env) := by
  cases env <;> simp [nextRaw, h1, h2]

theorem nextRaw_refill (schema : Schema) (p : Page) (env : List Page) (st : IterState)
    (h1 : st.items[st.cursor]? = none)
    (h2 : st.limit ≠ some (st.cursor : Int)) :
    nextRaw schema (p :: env) st = nextRaw schema env (fill schema st p) := by
  simp [nextRaw, h1, h2]

theorem drive_sentinel (schema : Schema) (st : IterState)
    (h : st.items[st.cursor]? = some none) (n : Nat) (env : List Page) :
    drive schema (n + 1) st env = ⟨[], .done, st, env⟩ := by
  simp [drive, nextRaw_sentinel schema env st h]

theorem drive_limit (schema : Schema) (st : IterState)
    (h1 : st.items[st.cursor]? = none)
    (h2 : st.limit = some (st.cursor : Int)) (n : Nat) (env : List Page) :
    drive schema (n + 1) st env = ⟨[], .done, st, env⟩ := by
  simp [drive, nextRaw_limit schema env st h1 h2]

theorem drive_refill (schema : Schema) (p : Page) (env : List Page) (st : IterState)
    (h1 : st.items[st.cursor]? = none)
    (h2 : st.limit ≠ some (st.cursor : Int)) (n : Nat) :
    drive schema (n + 1) st (p :: env) = drive schema (n + 1) (fill schema st p) env := by
  conv_lhs => rw [drive]
  conv_rhs => rw [drive]
  rw [nextRaw_refill schema p env st h1 h2]

theorem drive_buffer (schema : Schema) (xs : List (JSValue × List (String × JSValue))) :
    ∀ (st : IterState) (env : List Page) (n : Nat)
      (tl : List (Option (JSValue × List (String × JSValue)))),
      st.items.drop st.cursor = xs.map some ++ tl →
      drive schema (xs.length + n) st env =
        ⟨xs.map yieldOf ++ (drive schema n { st with cursor := st.cursor + xs.length } env).ys,
         (drive schema n { st with cursor := st.cursor + xs.length } env).res,
         (drive schema n { st with cursor := st.cursor + xs.length } env).st,
         (drive schema n { st with cursor := st.cursor + xs.length } env).env⟩ := by
  induction xs with
  | nil =>
      intro st env n tl h
      simp
  | cons x xs ih =>
      intro st env n tl h
      have hget : st.items[st.cursor]? = some (some x) := by
        have hd := List.getElem?_drop st.items st.cursor 0
        rw [h] at hd
        simpa using hd.symm
      have hfuel : (x :: xs).length + n = (xs.length + n) + 1 := by
        simp [List.length_cons]
        omega
      rw [hfuel]
      rw [drive]
      rw [nextRaw_yield schema env st x hget]
      dsimp only
      have hdrop1 : st.items.drop (st.cursor + 1) = xs.map some ++ tl := by
        have := List.tail_drop st.items st.cursor
        rw [h] at this
        simpa using this.symm
      have hih := ih { st with cursor := st.cursor + 1 } env n tl (by simpa using hdrop1)
      simp only at hih
      rw [hih]
      have harith : st.cursor + 1 + xs.length = st.cursor + (x :: xs).length := by
        simp [List.length_cons]
        omega
      simp [harith, yieldOf]

def chainEntries (schema : Schema) (env : List Page) :
    List (Option (JSValue × List (String × JSValue))) :=
  (env.map (pageEntries schema)).flatten

def totalItems (env : List Page) : Nat := (env.map (fun p => p.items.length)).sum

def allItems (env : List Page) : List (List (String × AttrValue)) :=
  (env.map Page.items).flatten

/-- A provider page sequence as DynamoDB delivers it for one partition:
    every page before the last carries a continuation token, the last
    does not. -/
def chainGood : List Page → Prop
  | [] => False
  | [p] => p.hasMore = false
  | p :: ps => p.hasMore = true ∧ chainGood ps

theorem chainEntries_drop (schema : Schema) :
    ∀ env : List Page, chainGood env →
      (chainEntries schema env).drop (totalItems env) = [none] := by
  intro env
  induction env with
  | nil => intro h; exact absurd h (by simp [chainGood])
  | cons p ps ih =>
      intro hgood
      cases ps with
      | nil =>
          have hlast : p.hasMore = false := hgood
          have hlen : ((p.items.map (toKV schema)).map some).length = p.items.length := by
            simp
          have hd := List.drop_left ((p.items.map (toKV schema)).map some)
            ([none] : List (Option (JSValue × List (String × JSValue))))
          rw [hlen] at hd
          simpa [chainEntries, totalItems, pageEntries, hlast] using hd
      | cons q ps' =>
          have hmore : p.hasMore = true := hgood.1
          have hrest := ih hgood.2
          have hlen : ((p.items.map (toKV schema)).map some).length = p.items.length := by
            simp
          have hd := @List.drop_append _ ((p.items.map (toKV schema)).map some)
            (chainEntries schema (q :: ps')) (totalItems (q :: ps'))
          rw [hlen] at hd
          have : chainEntries schema (p :: q :: ps')
              = (p.items.map (toKV schema)).map some ++ chainEntries schema (q :: ps') := by
            simp [chainEntries, pageEntries, hmore]
          rw [this]
          have htot : totalItems (p :: q :: ps')
              = p.items.length + totalItems (q :: ps') := by
            simp [totalItems]
          rw [htot, hd, hrest]

theorem drive_chain (schema : Schema) :
    ∀ (env : List Page), chainGood env → ∀ (st : IterState) (rest : List Page),
      st.limit = none → st.cursor = st.items.length →
      drive schema (totalItems env + 1) st (env ++ rest) =
        ⟨((allItems env).map (toKV schema)).map yieldOf, .done,
         ⟨st.items ++ chainEntries schema env, st.items.length + totalItems env,
          none, st.queries + env.length⟩, rest⟩ := by
  intro env
  induction env with
  | nil => intro h; exact absurd h (by simp [chainGood])
  | cons p ps ih =>
      intro hgood st rest hlim hcur
      have hempty : st.items[st.cursor]? = none :=
        List.getElem?_eq_none (by omega)
      have hnotlim : st.limit ≠ some (st.cursor : Int) := by
        rw [hlim]; simp
      rw [List.cons_append]
      cases ps with
      | nil =>
          have hlast : p.hasMore = false := hgood
          have hfuel : totalItems [p] + 1 = (p.items.map (toKV schema)).length + 1 := by
            simp [totalItems]
          rw [List.nil_append, hfuel,
            drive_refill schema p rest st hempty hnotlim]
          have hdrop : (fill schema st p).items.drop (fill schema st p).cursor
              = ((p.items.map (toKV schema)).map some) ++ [none] := by
            simp only [fill, pageEntries, hlast]
            rw [hcur]
            simp [List.drop_left]
          rw [drive_buffer schema (p.items.map (toKV schema))
            (fill schema st p) rest 1 [none] hdrop]
          have hsent : ({ fill schema st p with
              cursor := (fill schema st p).cursor
                + (p.items.map (toKV schema)).length } : IterState).items[
              ({ fill schema st p with
              cursor := (fill schema st p).cursor
                + (p.items.map (toKV schema)).length } : IterState).cursor]?
              = some none := by
            have hd : (fill schema st p).items.drop
                (st.items.length + p.items.length) = [none] := by
              rw [← List.drop_drop]
              have hcur2 : (fill schema st p).cursor = st.items.length := by
                simp [fill, hcur]
              rw [← hcur2, hdrop]
              have hl := List.drop_left ((p.items.map (toKV schema)).map some)
                ([none] : List (Option (JSValue × List (String × JSValue))))
              simpa using hl
            have hg := List.getElem?_drop ((fill schema st p).items)
              (st.items.length + p.items.length) 0
            rw [hd] at hg
            simp only [fill]
            rw [hcur]
            simpa using hg.symm
          rw [drive_sentinel schema _ hsent 0 rest]
          simp [fill, pageEntries, hlast, allItems, chainEntries, totalItems, hcur,
            hlim]
      | cons q ps' =>
          have hmore : p.hasMore = true := hgood.1
          have hfuel1 : totalItems (p :: q :: ps') + 1
              = ((p.items.map (toKV schema)).length + totalItems (q :: ps')) + 1 := by
            simp [totalItems]
          have hfuel2 : ((p.items.map (toKV schema)).length + totalItems (q :: ps')) + 1
              = (p.items.map (toKV schema)).length + (totalItems (q :: ps') + 1) := by
            omega
          rw [hfuel1, drive_refill schema p ((q :: ps') ++ rest) st hempty hnotlim,
            hfuel2]
          have hdrop : (fill schema st p).items.drop (fill schema st p).cursor
              = ((p.items.map (toKV schema)).map some) ++ [] := by
            simp only [fill, pageEntries, hmore]
            rw [hcur]
            simp [List.drop_left]
          rw [drive_buffer schema (p.items.map (toKV schema))
            (fill schema st p) ((q :: ps') ++ rest) (totalItems (q :: ps') + 1) [] hdrop]
          have hst2lim : ({ fill schema st p with
              cursor := (fill schema st p).cursor
                + (p.items.map (toKV schema)).length } : IterState).limit = none := by
            simp [fill, hlim]
          have hst2cur : ({ fill schema st p with
              cursor := (fill schema st p).cursor
                + (p.items.map (toKV schema)).length } : IterState).cursor
              = ({ fill schema st p with
              cursor := (fill schema st p).cursor
                + (p.items.map (toKV schema)).length } : IterState).items.length := by
            simp [fill, pageEntries, hmore, hcur]
          have hih := ih hgood.2
            ({ fill schema st p with
              cursor := (fill schema st p).cursor
                + (p.items.map (toKV schema)).length } : IterState)
            rest hst2lim hst2cur
          rw [hih]
          simp [fill, pageEntries, hmore, allItems, chainEntries, totalItems, hcur,
            List.map_append, List.append_assoc]
          omega

theorem drive_chain_lim (schema : Schema) :
    ∀ (env : List Page), (∀ p ∈ env, p.hasMore = true ∧ p.items ≠ []) →
      ∀ (st : IterState) (rest : List Page),
      st.limit = some ((st.cursor + totalItems env : Nat) : Int) →
      st.cursor = st.items.length →
      drive schema (totalItems env + 1) st (env ++ rest) =
        ⟨((allItems env).map (toKV schema)).map yieldOf, .done,
         ⟨st.items ++ chainEntries schema env, st.items.length + totalItems env,
          st.limit, st.queries + env.length⟩, rest⟩ := by
  intro env
  induction env with
  | nil =>
      intro _ st rest hlim hcur
      have hempty : st.items[st.cursor]? = none :=
        List.getElem?_eq_none (by omega)
      have hlim0 : st.limit = some (st.cursor : Int) := by
        rw [hlim]
        simp [totalItems]
      have hfuel : totalItems ([] : List Page) + 1 = 0 + 1 := by simp [totalItems]
      rw [List.nil_append, hfuel, drive_limit schema st hempty hlim0 0 rest]
      simp [allItems, chainEntries, totalItems, hcur]
      rw [← hcur]
  | cons p ps ih =>
      intro hpages st rest hlim hcur
      have hp := hpages p (by simp)
      have hempty : st.items[st.cursor]? = none :=
        List.getElem?_eq_none (by omega)
      have hplen : p.items.length ≠ 0 := by
        simpa [List.length_eq_zero] using hp.2
      have hnotlim : st.limit ≠ some (st.cursor : Int) := by
        rw [hlim]
        intro hc
        have := Option.some.inj hc
        have : st.cursor + totalItems (p :: ps) = st.cursor := by exact_mod_cast this
        have htot : totalItems (p :: ps) = p.items.length + totalItems ps := by
          simp [totalItems]
        omega
      rw [List.cons_append]
      have hfuel1 : totalItems (p :: ps) + 1
          = ((p.items.map (toKV schema)).length + totalItems ps) + 1 := by
        simp [totalItems]
      have hfuel2 : ((p.items.map (toKV schema)).length + totalItems ps) + 1
          = (p.items.map (toKV schema)).length + (totalItems ps + 1) := by
        omega
      rw [hfuel1, drive_refill schema p (ps ++ rest) st hempty hnotlim, hfuel2]
      have hdrop : (fill schema st p).items.drop (fill schema st p).cursor
          = ((p.items.map (toKV schema)).map some) ++ [] := by
        simp only [fill, pageEntries, hp.1]
        rw [hcur]
        simp [List.drop_left]
      rw [drive_buffer schema (p.items.map (toKV schema))
        (fill schema st p) (ps ++ rest) (totalItems ps + 1) [] hdrop]
      have hst2lim : ({ fill schema st p with
          cursor := (fill schema st p).cursor
            + (p.items.map (toKV schema)).length } : IterState).limit
          = some ((({ fill schema st p with
          cursor := (fill schema st p).cursor
            + (p.items.map (toKV schema)).length } : IterState).cursor
            + totalItems ps : Nat) : Int) := by
        simp only [fill]
        rw [hlim]
        have htot : totalItems (p :: ps) = p.items.length + totalItems ps := by
          simp [totalItems]
        congr 1
        simp [htot]
        omega
      have hst2cur : ({ fill schema st p with
          cursor := (fill schema st p).cursor
            + (p.items.map (toKV schema)).length } : IterState).cursor
          = ({ fill schema st p with
          cursor := (fill schema st p).cursor
            + (p.items.map (toKV schema)).length } : IterState).items.length := by
        simp [fill, pageEntries, hp.1, hcur]
      have hih := ih (fun q hq => hpages q (by simp [hq]))
        ({ fill schema st p with
          cursor := (fill schema st p).cursor
            + (p.items.map (toKV schema)).length } : IterState)
        rest hst2lim hst2cur
      rw [hih]
      simp [fill, pageEntries, hp.1, allItems, chainEntries, totalItems, hcur,
        hlim, List.map_append, List.append_assoc]
      omega

theorem chainEntries_length_noSentinel (schema : Schema) :
    ∀ env : List Page, (∀ p ∈ env, p.hasMore = true) →
      (chainEntries schema env).length = totalItems env := by
  intro env
  induction env with
  | nil => intro _; rfl
  | cons p ps ih =>
      intro h
      have hp : p.hasMore = true := h p (by simp)
      have hps := ih (fun q hq => h q (by simp [hq]))
      simp [chainEntries, totalItems, pageEntries, hp] at hps ⊢
      omega

theorem totalItems_eq_length (env : List Page) :
    totalItems env = (allItems env).length := by
  induction env with
  | nil => rfl
  | cons p ps ih =>
      simp [totalItems, allItems, ih]
      have hmc : List.map (fun p : Page => p.items.length) ps
          = List.map (List.length ∘ Page.items) ps :=
        List.map_congr_left (fun a _ => rfl)
      rw [hmc]

/-- C5 (amended): the limit is compared with the cursor only when the
    buffer is drained, so the iterator stops after exactly L records
    precisely when the pages drain the buffer at L records ever yielded —
    in particular when the provider pages (all nonempty, all with
    continuation tokens) sum to exactly L.  Then the iterator with
    limit L = totalItems env yields the L records, one query per page,
    and every later next() ends with no further query; but a provider
    page overshooting the remaining limit makes the iterator yield more
    than L items (see the counterexample), so the absolute-count claim
    does not hold for arbitrary provider page sizes. -/
theorem C5_limit_enforcement (schema : Schema) (env rest : List Page)
    (hpages : ∀ p ∈ env, p.hasMore = true ∧ p.items ≠ []) :
    (drive schema (totalItems env + 1)
        (initIter ⟨none, none, none, none, (totalItems env : Int), false⟩)
        (env ++ rest)).ys.length = totalItems env ∧
    (drive schema (totalItems env + 1)
        (initIter ⟨none, none, none, none, (totalItems env : Int), false⟩)
        (env ++ rest)).res = .done ∧
    (drive schema (totalItems env + 1)
        (initIter ⟨none, none, none, none, (totalItems env : Int), false⟩)
        (env ++ rest)).st.queries = env.length ∧
    (drive schema (totalItems env + 1)
        (initIter ⟨none, none, none, none, (totalItems env : Int), false⟩)
        (env ++ rest)).env = rest ∧
    ∀ (n : Nat) (env2 : List Page),
      drive schema (n + 1)
          (drive schema (totalItems env + 1)
            (initIter ⟨none, none, none, none, (totalItems env : Int), false⟩)
            (env ++ rest)).st env2
        = ⟨[], .done,
           (drive schema (totalItems env + 1)
             (initIter ⟨none, none, none, none, (totalItems env : Int), false⟩)
             (env ++ rest)).st, env2⟩ := by
  have hlimne : ((totalItems env : Nat) : Int) ≠ -1 := by omega
  have hst0 : initIter ⟨none, none, none, none, (totalItems env : Int), false⟩
      = ⟨[], 0, some ((totalItems env : Nat) : Int), 0⟩ := by
    simp [initIter, initLimit, hlimne]
  have hlim : (⟨[], 0, some ((totalItems env : Nat) : Int), 0⟩ : IterState).limit
      = some (((⟨[], 0, some ((totalItems env : Nat) : Int), 0⟩ : IterState).cursor
        + totalItems env : Nat) : Int) := by
    simp
  have hcur : (⟨[], 0, some ((totalItems env : Nat) : Int), 0⟩ : IterState).cursor
      = (⟨[], 0, some ((totalItems env : Nat) : Int), 0⟩ : IterState).items.length := by
    simp
  have hrun := drive_chain_lim schema env hpages
    ⟨[], 0, some ((totalItems env : Nat) : Int), 0⟩ rest hlim hcur
  rw [hst0, hrun]
  have hhm : ∀ p ∈ env, p.hasMore = true := fun p hp => (hpages p hp).1
  have hlen : (chainEntries schema env).length = totalItems env :=
    chainEntries_length_noSentinel schema env hhm
  have hempty : (([] : List (Option (JSValue × List (String × JSValue))))
      ++ chainEntries schema env)[(0 : Nat) + totalItems env]? = none := by
    apply List.getElem?_eq_none
    simp [hlen]
  have hfin : ∀ (n : Nat) (env2 : List Page),
      drive schema (n + 1)
        (⟨[] ++ chainEntries schema env, 0 + totalItems env,
          some ((totalItems env : Nat) : Int), 0 + env.length⟩ : IterState) env2
      = ⟨[], .done,
         ⟨[] ++ chainEntries schema env, 0 + totalItems env,
          some ((totalItems env : Nat) : Int), 0 + env.length⟩, env2⟩ := by
    intro n env2
    apply drive_limit
    · exact hempty
    · simp
  refine ⟨?_, rfl, by simp, rfl, ?_⟩
  · simp [totalItems_eq_length]
  · intro n env2
    have hh := hfin n env2
    simpa using hh

theorem C5_limit_enforcement_witness :
    (drive ⟨⟨"h", "H"⟩, ⟨"r"⟩⟩
        (totalItems [⟨[[("h", .S "H"), ("r", .S "a")], [("h", .S "H"), ("r", .S "b")]], true⟩] + 1)
        (initIter ⟨none, none, none, none,
          (totalItems [⟨[[("h", .S "H"), ("r", .S "a")], [("h", .S "H"), ("r", .S "b")]], true⟩] : Int), false⟩)
        ([⟨[[("h", .S "H"), ("r", .S "a")], [("h", .S "H"), ("r", .S "b")]], true⟩] ++ [])).ys.length
      = totalItems [⟨[[("h", .S "H"), ("r", .S "a")], [("h", .S "H"), ("r", .S "b")]], true⟩] ∧
    (drive ⟨⟨"h", "H"⟩, ⟨"r"⟩⟩
        (totalItems [⟨[[("h", .S "H"), ("r", .S "a")], [("h", .S "H"), ("r", .S "b")]], true⟩] + 1)
        (initIter ⟨none, none, none, none,
          (totalItems [⟨[[("h", .S "H"), ("r", .S "a")], [("h", .S "H"), ("r", .S "b")]], true⟩] : Int), false⟩)
        ([⟨[[("h", .S "H"), ("r", .S "a")], [("h", .S "H"), ("r", .S "b")]], true⟩] ++ [])).res = .done :=
  have h := C5_limit_enforcement ⟨⟨"h", "H"⟩, ⟨"r"⟩⟩
    [⟨[[("h", .S "H"), ("r", .S "a")], [("h", .S "H"), ("r", .S "b")]], true⟩] []
    (by intro p hp
        rw [List.mem_singleton] at hp
        subst hp
        exact ⟨rfl, by simp⟩)
  ⟨h.1, h.2.1⟩

/-- C5 counterexample: limit 1 over a partition of two items, but the
    provider returns a single page holding both items: the iterator
    yields 2 records, not 1 — a buffered item is returned without
    consulting the limit. -/
theorem C5_counterexample :
    (drive ⟨⟨"h", "H"⟩, ⟨"r"⟩⟩ 3 (initIter ⟨none, none, none, none, 1, false⟩)
      [⟨[[("h", .S "H"), ("r", .S "a")], [("h", .S "H"), ("r", .S "b")]], false⟩]).ys.length
      = 2 ∧ (2 : Nat) ≠ 1 :=
  ⟨rfl, by decide⟩

/-! ### Splitting a partition into provider pages of size P -/

def chunk (P : Nat) : List α → List (List α)
  | [] => []
  | x :: xs => (x :: xs.take (P - 1)) :: chunk P (xs.drop (P - 1))
  termination_by l => l.length
  decreasing_by
    simp
    omega

theorem chunk_flatten_aux (P : Nat) : ∀ (n : Nat) (l : List α), l.length ≤ n →
    (chunk P l).flatten = l := by
  intro n
  induction n with
  | zero =>
      intro l hl
      have : l = [] := List.length_eq_zero.mp (Nat.le_zero.mp hl)
      subst this
      simp [chunk]
  | succ n ih =>
      intro l hl
      match l with
      | [] => simp [chunk]
      | x :: xs =>
          simp only [chunk, List.flatten_cons]
          rw [ih (xs.drop (P - 1)) (by simp at hl ⊢; omega)]
          simp [List.take_append_drop]

theorem chunk_flatten (P : Nat) (l : List α) : (chunk P l).flatten = l :=
  chunk_flatten_aux P l.length l le_rfl

theorem chunk_length_aux (P : Nat) (hP : 0 < P) : ∀ (n : Nat) (l : List α),
    l.length ≤ n → (chunk P l).length = (l.length + P - 1) / P := by
  intro n
  induction n with
  | zero =>
      intro l hl
      have : l = [] := List.length_eq_zero.mp (Nat.le_zero.mp hl)
      subst this
      simp [chunk]
      rw [Nat.div_eq_of_lt (by omega)]
  | succ n ih =>
      intro l hl
      match l with
      | [] =>
          simp [chunk]
          rw [Nat.div_eq_of_lt (by omega)]
      | x :: xs =>
          simp only [chunk, List.length_cons]
          rw [ih (xs.drop (P - 1)) (by simp at hl ⊢; omega)]
          simp only [List.length_drop]
          have hx : xs.length + 1 + P - 1 = xs.length + P := by omega
          rw [hx, Nat.add_div_right _ hP]
          by_cases hc : P - 1 ≤ xs.length
          · have h1 : xs.length - (P - 1) + P - 1 = xs.length := by omega
            rw [h1]
          · have h1 : xs.length - (P - 1) = 0 := by omega
            have h2 : xs.length / P = 0 := Nat.div_eq_of_lt (by omega)
            rw [h1, h2, Nat.div_eq_of_lt (by omega)]

theorem chunk_length (P : Nat) (hP : 0 < P) (l : List α) :
    (chunk P l).length = (l.length + P - 1) / P :=
  chunk_length_aux P hP l.length l le_rfl

theorem chunk_ne_nil (P : Nat) (l : List α) (hl : l ≠ []) : chunk P l ≠ [] := by
  match l with
  | [] => exact absurd rfl hl
  | x :: xs => simp [chunk]

/-- Tag chunks as provider pages: every page carries a continuation
    token except the last. -/
def markPages : List (List (List (String × AttrValue))) → List Page
  | [] => []
  | [c] => [⟨c, false⟩]
  | c :: cs => ⟨c, true⟩ :: markPages cs

theorem markPages_good : ∀ cs, cs ≠ [] → chainGood (markPages cs) := by
  intro cs
  induction cs with
  | nil => intro h; exact absurd rfl h
  | cons c cs ih =>
      intro _
      cases cs with
      | nil => exact rfl
      | cons d cs' =>
          have hrest := ih (by simp)
          have hshape : ∃ p ps, markPages (d :: cs') = p :: ps := by
            cases cs' with
            | nil => exact ⟨⟨d, false⟩, [], rfl⟩
            | cons e cs2 => exact ⟨⟨d, true⟩, markPages (e :: cs2), rfl⟩
          obtain ⟨p, ps, hps⟩ := hshape
          show chainGood (⟨c, true⟩ :: markPages (d :: cs'))
          rw [hps] at hrest ⊢
          exact ⟨rfl, hrest⟩

theorem markPages_items : ∀ cs, (markPages cs).map Page.items = cs := by
  intro cs
  induction cs with
  | nil => rfl
  | cons c cs ih =>
      cases cs with
      | nil => rfl
      | cons d cs' => simp [markPages, ih]

theorem markPages_length : ∀ cs, (markPages cs).length = cs.length := by
  intro cs
  have hm := congrArg List.length (markPages_items cs)
  simpa using hm

/-- C6: over a partition of N items delivered by the provider in pages
    of size P (P < N; last page possibly smaller), each page except the
    last carrying a continuation token, the unlimited iterator yields
    exactly the N records in provider order, issues ceil(N/P) query
    calls, and after the Nth record every subsequent next() call yields
    end-of-sequence with zero further provider calls. -/
theorem C6_pagination (schema : Schema)
    (items : List (List (String × AttrValue))) (P : Nat)
    (hP : 0 < P) (hPN : P < items.length) :
    (drive schema (items.length + 1) (initIter ⟨none, none, none, none, -1, false⟩)
        (markPages (chunk P items))).ys
      = (items.map (toKV schema)).map yieldOf ∧
    (drive schema (items.length + 1) (initIter ⟨none, none, none, none, -1, false⟩)
        (markPages (chunk P items))).res = .done ∧
    (drive schema (items.length + 1) (initIter ⟨none, none, none, none, -1, false⟩)
        (markPages (chunk P items))).st.queries = (items.length + P - 1) / P ∧
    (drive schema (items.length + 1) (initIter ⟨none, none, none, none, -1, false⟩)
        (markPages (chunk P items))).env = [] ∧
    ∀ (n : Nat) (env2 : List Page),
      drive schema (n + 1)
          (drive schema (items.length + 1) (initIter ⟨none, none, none, none, -1, false⟩)
            (markPages (chunk P items))).st env2
        = ⟨[], .done,
           (drive schema (items.length + 1) (initIter ⟨none, none, none, none, -1, false⟩)
             (markPages (chunk P items))).st, env2⟩ := by
  have hne : items ≠ [] := by
    intro h
    subst h
    simp at hPN
  have hcne := chunk_ne_nil P items hne
  have hgood := markPages_good (chunk P items) hcne
  have hall : allItems (markPages (chunk P items)) = items := by
    unfold allItems
    rw [markPages_items, chunk_flatten]
  have htot : totalItems (markPages (chunk P items)) = items.length := by
    rw [totalItems_eq_length, hall]
  have hst0 : initIter ⟨none, none, none, none, -1, false⟩
      = (⟨[], 0, none, 0⟩ : IterState) := rfl
  rw [hst0]
  have hrun := drive_chain schema (markPages (chunk P items)) hgood
    (⟨[], 0, none, 0⟩ : IterState) [] rfl rfl
  rw [List.append_nil, htot] at hrun
  rw [hrun]
  refine ⟨by rw [hall], rfl, ?_, rfl, ?_⟩
  · show ((⟨[], 0, none, 0⟩ : IterState)).queries + (markPages (chunk P items)).length
      = (items.length + P - 1) / P
    rw [markPages_length, chunk_length P hP]
    simp
  · intro n env2
    apply drive_sentinel
    dsimp only
    simp only [List.length_nil, List.nil_append, Nat.zero_add]
    rw [← htot]
    have hg := List.getElem?_drop (chainEntries schema (markPages (chunk P items)))
      (totalItems (markPages (chunk P items))) 0
    rw [chainEntries_drop schema (markPages (chunk P items)) hgood] at hg
    simpa using hg.symm

theorem C6_pagination_witness :
    (drive ⟨⟨"h", "H"⟩, ⟨"r"⟩⟩
        ([[("r", AttrValue.S "a")], [("r", AttrValue.S "b")],
          [("r", AttrValue.S "c")]].length + 1)
        (initIter ⟨none, none, none, none, -1, false⟩)
        (markPages (chunk 2 [[("r", AttrValue.S "a")], [("r", AttrValue.S "b")],
          [("r", AttrValue.S "c")]]))).ys
      = ([[("r", AttrValue.S "a")], [("r", AttrValue.S "b")],
          [("r", AttrValue.S "c")]].map (toKV ⟨⟨"h", "H"⟩, ⟨"r"⟩⟩)).map yieldOf ∧
    (drive ⟨⟨"h", "H"⟩, ⟨"r"⟩⟩
        ([[("r", AttrValue.S "a")], [("r", AttrValue.S "b")],
          [("r", AttrValue.S "c")]].length + 1)
        (initIter ⟨none, none, none, none, -1, false⟩)
        (markPages (chunk 2 [[("r", AttrValue.S "a")], [("r", AttrValue.S "b")],
          [("r", AttrValue.S "c")]]))).st.queries
      = ([[("r", AttrValue.S "a")], [("r", AttrValue.S "b")],
          [("r", AttrValue.S "c")]].length + 2 - 1) / 2 :=
  have h := C6_pagination ⟨⟨"h", "H"⟩, ⟨"r"⟩⟩
    [[("r", AttrValue.S "a")], [("r", AttrValue.S "b")], [("r", AttrValue.S "c")]]
    2 (by decide) (by decide)
  ⟨h.1, h.2.2.1⟩

/-! ### Batch writer loop (_batch lines 244-262) -/

/- The submission loop, driven by the provider's per-round
   UnprocessedItems lists (one response per submitted round): each round
   submits the previous round's unprocessed entries followed by entries
   spliced off the pending queue to fill up to 25, finishing when there
   is nothing left to submit.  The result is the list of submitted
   rounds; none models running out of provider responses mid-run. -/
def batchLoop (unproc pending : List WriteReq)
    (responses : List (List WriteReq)) : Option (List (List WriteReq)) :=
  let reqs := unproc ++ pending.take (25 - unproc.length)
  if reqs.length = 0 then some []
  else
    match responses with
    | [] => none
    | u :: rest =>
        match batchLoop u (pending.drop (25 - unproc.length)) rest with
        | none => none
        | some rounds => some (reqs :: rounds)

/-- The unprocessed entries at the start of round i (round 0 starts from
    the initial unprocessed set, round i+1 from response i). -/
def roundUnproc : List WriteReq → List (List WriteReq) → Nat → List WriteReq
  | u0, _, 0 => u0
  | _, [], _ + 1 => []
  | _, u :: rest, i + 1 => roundUnproc u rest i

/-- The pending queue remaining at the start of round i. -/
def pendAt : List WriteReq → List WriteReq → List (List WriteReq) → Nat → List WriteReq
  | _, pending, _, 0 => pending
  | u0, pending, [], _ + 1 => pending.drop (25 - u0.length)
  | u0, pending, u :: rest, i + 1 => pendAt u (pending.drop (25 - u0.length)) rest i

theorem batchLoop_spec :
    ∀ (responses : List (List WriteReq)) (unproc pending : List WriteReq)
      (rounds : List (List WriteReq)),
      unproc.length ≤ 25 → (∀ u ∈ responses, u.length ≤ 25) →
      batchLoop unproc pending responses = some rounds →
      (∀ r ∈ rounds, r.length ≤ 25) ∧
      (∀ i, (hi : i < rounds.length) →
        rounds.get ⟨i, hi⟩
          = roundUnproc unproc responses i
            ++ (pendAt unproc pending responses i).take
                (25 - (roundUnproc unproc responses i).length)) ∧
      (∀ i, (hi : i < rounds.length) → rounds.get ⟨i, hi⟩ ≠ []) ∧
      roundUnproc unproc responses rounds.length = [] ∧
      pendAt unproc pending responses rounds.length = [] ∧
      (rounds = [] ↔ unproc = [] ∧ pending = []) := by
  intro responses
  induction responses with
  | nil =>
      intro unproc pending rounds hu hresp hrun
      unfold batchLoop at hrun
      by_cases hreqs : (unproc ++ pending.take (25 - unproc.length)).length = 0
      · rw [if_pos hreqs] at hrun
        have hrounds : rounds = [] := (Option.some.inj hrun).symm
        subst hrounds
        have hboth : unproc = [] ∧ pending.take (25 - unproc.length) = [] := by
          constructor
          · have := List.length_append unproc (pending.take (25 - unproc.length))
            have hl : unproc.length = 0 := by omega
            exact List.length_eq_zero.mp hl
          · have := List.length_append unproc (pending.take (25 - unproc.length))
            have hl : (pending.take (25 - unproc.length)).length = 0 := by omega
            exact List.length_eq_zero.mp hl
        have hpend : pending = [] := by
          have h2 := hboth.2
          rw [hboth.1] at h2
          simpa using h2
        refine ⟨by simp, by simp, by simp, ?_, ?_, by simp [hboth.1, hpend]⟩
        · simpa [roundUnproc] using hboth.1
        · simpa [pendAt] using hpend
      · rw [if_neg hreqs] at hrun
        exact absurd hrun (by simp)
  | cons u rest ih =>
      intro unproc pending rounds hu hresp hrun
      unfold batchLoop at hrun
      by_cases hreqs : (unproc ++ pending.take (25 - unproc.length)).length = 0
      · rw [if_pos hreqs] at hrun
        have hrounds : rounds = [] := (Option.some.inj hrun).symm
        subst hrounds
        have hboth : unproc = [] ∧ pending.take (25 - unproc.length) = [] := by
          constructor
          · have := List.length_append unproc (pending.take (25 - unproc.length))
            have hl : unproc.length = 0 := by omega
            exact List.length_eq_zero.mp hl
          · have := List.length_append unproc (pending.take (25 - unproc.length))
            have hl : (pending.take (25 - unproc.length)).length = 0 := by omega
            exact List.length_eq_zero.mp hl
        have hpend : pending = [] := by
          have h2 := hboth.2
          rw [hboth.1] at h2
          simpa using h2
        refine ⟨by simp, by simp, by simp, ?_, ?_, by simp [hboth.1, hpend]⟩
        · simpa [roundUnproc] using hboth.1
        · simpa [pendAt] using hpend
      · rw [if_neg hreqs] at hrun
        dsimp only at hrun
        cases hrec : batchLoop u (pending.drop (25 - unproc.length)) rest with
        | none =>
            rw [hrec] at hrun
            exact absurd hrun (by simp)
        | some rounds' =>
            rw [hrec] at hrun
            dsimp only at hrun
            have hrounds : rounds
                = (unproc ++ pending.take (25 - unproc.length)) :: rounds' :=
              (Option.some.inj hrun).symm
            subst hrounds
            have hulen : u.length ≤ 25 := hresp u (by simp)
            have hresp' : ∀ v ∈ rest, v.length ≤ 25 :=
              fun v hv => hresp v (by simp [hv])
            have hIH := ih u (pending.drop (25 - unproc.length)) rounds'
              hulen hresp' hrec
            have hcap : (unproc ++ pending.take (25 - unproc.length)).length ≤ 25 := by
              rw [List.length_append, List.length_take]
              omega
            refine ⟨?_, ?_, ?_, ?_, ?_, ?_⟩
            · intro r hr
              rcases List.mem_cons.mp hr with rfl | hr'
              · exact hcap
              · exact hIH.1 r hr'
            · intro i hi
              match i with
              | 0 => rfl
              | j + 1 =>
                  have hj : j < rounds'.length := by
                    simpa using hi
                  have := hIH.2.1 j hj
                  simpa [roundUnproc, pendAt] using this
            · intro i hi
              match i with
              | 0 =>
                  intro hcon
                  have hr0 : unproc ++ pending.take (25 - unproc.length) = [] := hcon
                  apply hreqs
                  rw [hr0]
                  rfl
              | j + 1 =>
                  have hj : j < rounds'.length := by
                    simpa using hi
                  simpa using hIH.2.2.1 j hj
            · simpa [roundUnproc] using hIH.2.2.2.1
            · simpa [pendAt] using hIH.2.2.2.2.1
            · constructor
              · intro hcon
                exact absurd hcon (by simp)
              · intro hcon
                have : (unproc ++ pending.take (25 - unproc.length)).length = 0 := by
                  rw [hcon.1, hcon.2]
                  rfl
                exact absurd this hreqs

/-- C7: starting from an empty unprocessed set, every round the batch
    writer submits has at most 25 entries and consists exactly of the
    previous round's unprocessed entries first, followed by the next
    pending entries filling the remaining capacity; every submitted
    round is nonempty, and the loop signals completion exactly when the
    pending queue is empty and the provider reported no unprocessed
    items (so after the last round both are exhausted, and no round at
    all is submitted iff the input batch was empty). -/
theorem C7_batch_chunking (pending : List WriteReq)
    (responses : List (List WriteReq)) (rounds : List (List WriteReq))
    (hresp : ∀ u ∈ responses, u.length ≤ 25)
    (hrun : batchLoop [] pending responses = some rounds) :
    (∀ r ∈ rounds, r.length ≤ 25) ∧
    (∀ i, (hi : i < rounds.length) →
      rounds.get ⟨i, hi⟩
        = roundUnproc [] responses i
          ++ (pendAt [] pending responses i).take
              (25 - (roundUnproc [] responses i).length)) ∧
    (∀ i, (hi : i < rounds.length) → rounds.get ⟨i, hi⟩ ≠ []) ∧
    roundUnproc [] responses rounds.length = [] ∧
    pendAt [] pending responses rounds.length = [] ∧
    (rounds = [] ↔ pending = []) := by
  have h := batchLoop_spec responses [] pending rounds (by simp) hresp hrun
  refine ⟨h.1, h.2.1, h.2.2.1, h.2.2.2.1, h.2.2.2.2.1, ?_⟩
  have hiff := h.2.2.2.2.2
  simpa using hiff

theorem C7_batch_chunking_witness :
    (∀ r ∈ [List.replicate 25 (WriteReq.PutRequest []),
        WriteReq.PutRequest [] :: List.replicate 2 (WriteReq.PutRequest [])],
      r.length ≤ 25) ∧
    pendAt [] (List.replicate 27 (WriteReq.PutRequest []))
        [[WriteReq.PutRequest []], []]
        [List.replicate 25 (WriteReq.PutRequest []),
          WriteReq.PutRequest [] :: List.replicate 2 (WriteReq.PutRequest [])].length
      = [] :=
  have h := C7_batch_chunking (List.replicate 27 (WriteReq.PutRequest []))
    [[WriteReq.PutRequest []], []]
    [List.replicate 25 (WriteReq.PutRequest []),
      WriteReq.PutRequest [] :: List.replicate 2 (WriteReq.PutRequest [])]
    (by decide) rfl
  ⟨h.1, h.2.2.2.2.1⟩
